import Mathlib

/-!
A shallow embedding of the DistroCache engine (`cmd/cache-server/main.go`).

Modelling conventions:
* Times and durations are `Int` (nanoseconds, mirroring Go's `time.Duration`
  and monotonic clock readings); every operation that reads the clock takes
  an explicit `now` argument.
* The opaque `interface{}` value payload is modelled as a `String` blob; the
  engine never inspects it.
* Go maps (`data`, `tagIndex`) are association lists whose pair order is one
  admissible iteration order; all reachable states have unique keys.
* Go slices are lists.  The one place where slice *aliasing* is observable —
  `InvalidateByTag` iterates the captured `keys` slice while
  `removeFromTagIndex` splices the same backing array in place — is modelled
  explicitly: the iterated backing array `A` is threaded through the loop and
  each in-place splice `append(keys[:i], keys[i+1:]...)` rewrites its prefix
  while leaving a stale copy of the previous last element behind it.
* Prometheus counters/gauges are natural-number fields of the state.
* `Get`'s `go dc.Delete(key)` on the expired path is recorded as a
  `scheduleDelete` flag in the result; the spawned call is the ordinary
  `Delete` applied later.
-/

namespace DistroCache

/-- Entry record (Go `CacheItem`). -/
structure CacheItem where
  key : String
  value : String
  ttl : Int
  createdAt : Int
  accessedAt : Int
  accessCount : Int
  tags : List String
  metadata : List (String × String)
deriving DecidableEq, Repr

/-- Go `CacheItem.IsExpired`: a zero TTL never expires, otherwise
`time.Since(CreatedAt) > TTL`. -/
def IsExpired (ci : CacheItem) (now : Int) : Bool :=
  if ci.ttl = 0 then false else decide (now - ci.createdAt > ci.ttl)

abbrev Store := List (String × CacheItem)

abbrev TagIndex := List (String × List String)

/-- Association-list lookup (a Go map read). -/
def alookup {α : Type} : List (String × α) → String → Option α
  | [], _ => none
  | (k, v) :: l, key => if k = key then some v else alookup l key

/-- Go map write `m[key] = v`: replace the binding if present, else add one. -/
def ainsert {α : Type} : List (String × α) → String → α → List (String × α)
  | [], key, v => [(key, v)]
  | (k, w) :: l, key, v =>
      if k = key then (key, v) :: l else (k, w) :: ainsert l key v

/-- Go map write `m[key] = v` restricted to present keys (used where the Go
code only assigns to an existing binding). -/
def aupdate {α : Type} : List (String × α) → String → α → List (String × α)
  | [], _, _ => []
  | (k, w) :: l, key, v =>
      if k = key then (key, v) :: l else (k, w) :: aupdate l key v

/-- Go map `delete(m, key)`. -/
def aerase {α : Type} : List (String × α) → String → List (String × α)
  | [], _ => []
  | (k, w) :: l, key => if k = key then l else (k, w) :: aerase l key

/-- `dc.tagIndex[tag]` as a slice read: `nil` (empty) when absent. -/
def lookupTag (idx : TagIndex) (tag : String) : List String :=
  (alookup idx tag).getD []

/-- Inner loop of Go `removeFromTagIndex`: splice out the first occurrence of
`key` (`append(keys[:i], keys[i+1:]...)` followed by `break`). -/
def removeKeyOnce : List String → String → List String
  | [], _ => []
  | k :: l, key => if k = key then l else k :: removeKeyOnce l key

/-- One iteration of Go `removeFromTagIndex`'s outer loop for a single tag:
splice `key` out of the bucket, then drop the bucket if it is now empty. -/
def removeTagStep (idx : TagIndex) (key tag : String) : TagIndex :=
  let idx' := aupdate idx tag (removeKeyOnce (lookupTag idx tag) key)
  if lookupTag idx' tag = [] then aerase idx' tag else idx'

/-- Go `removeFromTagIndex(key, tags)`. -/
def removeFromTagIndex (idx : TagIndex) (key : String) (tags : List String) :
    TagIndex :=
  tags.foldl (fun acc tag => removeTagStep acc key tag) idx

/-- Go `addToTagIndex(key, tags)`: append `key` to each tag's bucket, once per
occurrence of the tag in `tags`. -/
def addToTagIndex (idx : TagIndex) (key : String) (tags : List String) :
    TagIndex :=
  tags.foldl (fun acc tag => ainsert acc tag (lookupTag acc tag ++ [key])) idx

/-- Engine state: the two indexes, the configuration's `MaxSize`, and the
metric counters/gauge (Go `DistroCache` + `CacheStats`). -/
structure Cache where
  data : Store
  tagIndex : TagIndex
  maxSize : Nat
  hits : Nat
  misses : Nat
  sets : Nat
  deletes : Nat
  evictions : Nat
  totalItems : Nat
deriving DecidableEq, Repr

/-- Result of `Get`: the returned item pointer, the `found` boolean, whether a
`go dc.Delete(key)` was spawned, and the post-state of the synchronous part. -/
structure GetResult where
  item : Option CacheItem
  found : Bool
  scheduleDelete : Bool
  state : Cache
deriving DecidableEq, Repr

/-- Go `Get`. -/
def Get (s : Cache) (key : String) (now : Int) : GetResult :=
  match alookup s.data key with
  | none => ⟨none, false, false, { s with misses := s.misses + 1 }⟩
  | some item =>
    if IsExpired item now then
      ⟨none, false, true, { s with misses := s.misses + 1 }⟩
    else
      let item' :=
        { item with accessedAt := now, accessCount := item.accessCount + 1 }
      ⟨some item', true, false,
        { s with data := ainsert s.data key item', hits := s.hits + 1 }⟩

/-- Go `Delete`. -/
def Delete (s : Cache) (key : String) : Bool × Cache :=
  match alookup s.data key with
  | none => (false, s)
  | some item =>
    let data' := aerase s.data key
    (true,
      { s with
          data := data'
          tagIndex := removeFromTagIndex s.tagIndex key item.tags
          deletes := s.deletes + 1
          totalItems := data'.length })

/-- The scan of Go `evictLRU`: fold over the store keeping the first entry
with a strictly smaller `AccessedAt`, using `""` as the unset sentinel. -/
def findOldest (d : Store) : String × Int :=
  d.foldl
    (fun acc kv =>
      if acc.1 = "" ∨ kv.2.accessedAt < acc.2 then (kv.1, kv.2.accessedAt)
      else acc)
    ("", 0)

/-- Go `evictLRU`. -/
def evictLRU (s : Cache) : Cache :=
  let oldestKey := (findOldest s.data).1
  if oldestKey = "" then s
  else
    let s' :=
      match alookup s.data oldestKey with
      | some item =>
          { s with tagIndex := removeFromTagIndex s.tagIndex oldestKey item.tags }
      | none => s
    { s' with data := aerase s'.data oldestKey, evictions := s'.evictions + 1 }

/-- Go `Set`.  Note the capacity check runs before the existing-key check. -/
def Set (s : Cache) (key value : String) (ttl : Int) (tags : List String)
    (now : Int) : Cache :=
  let s1 := if s.data.length ≥ s.maxSize then evictLRU s else s
  let s2 :=
    match alookup s1.data key with
    | some old =>
        { s1 with tagIndex := removeFromTagIndex s1.tagIndex key old.tags }
    | none => s1
  let item : CacheItem := ⟨key, value, ttl, now, now, 1, tags, []⟩
  let data' := ainsert s2.data key item
  { s2 with
      data := data'
      tagIndex := addToTagIndex s2.tagIndex key tags
      sets := s2.sets + 1
      totalItems := data'.length }

/-- Go `cleanup` (one background sweep at time `now`). -/
def cleanup (s : Cache) (now : Int) : Cache :=
  let s' :=
    s.data.foldl
      (fun acc kv =>
        if IsExpired kv.2 now then
          { acc with
              tagIndex := removeFromTagIndex acc.tagIndex kv.1 kv.2.tags
              data := aerase acc.data kv.1 }
        else acc)
      s
  { s' with totalItems := s'.data.length }

/-- The in-place splice of `key` out of `bucket` as seen by the *backing
array* `A` that `InvalidateByTag` is iterating: `bucket` is the length-`L`
prefix of `A`; `append(keys[:i], keys[i+1:]...)` shifts the prefix left and
leaves a stale copy of the old element `A[L-1]` at position `L-1`. -/
def spliceAliased (bucket : List String) (key : String) (A : List String) :
    List String × List String :=
  if key ∈ bucket then
    let b' := removeKeyOnce bucket key
    (b', b' ++ A.drop (bucket.length - 1))
  else (bucket, A)

/-- Go `removeFromTagIndex` as invoked from inside `InvalidateByTag`'s loop:
identical to `removeFromTagIndex`, except that the bucket of the tag being
invalidated shares its backing array with the iterated slice `A`, so splices
of that bucket also rewrite `A`. -/
def removeFromTagIndexAliased (idx : TagIndex) (key : String)
    (tags : List String) (tag : String) (A : List String) :
    TagIndex × List String :=
  tags.foldl
    (fun acc tg =>
      if tg = tag then
        match alookup acc.1 tg with
        | none => acc
        | some bucket =>
          let p := spliceAliased bucket key acc.2
          let idx' := aupdate acc.1 tg p.1
          (if lookupTag idx' tg = [] then aerase idx' tg else idx', p.2)
      else (removeTagStep acc.1 key tg, acc.2))
    (idx, A)

/-- The `for _, key := range keys` loop of Go `InvalidateByTag`: `n` counts
the remaining iterations (the range length is captured once), `j` is the
current index into the backing array `A`, `d` the running deletion count. -/
def invLoop (tag : String) :
    Nat → Cache → List String → Nat → Nat → Cache × List String × Nat
  | 0, s, A, _, d => (s, A, d)
  | n + 1, s, A, j, d =>
    let key := A.getD j ""
    match alookup s.data key with
    | none => invLoop tag n s A (j + 1) d
    | some item =>
      let r := removeFromTagIndexAliased s.tagIndex key item.tags tag A
      invLoop tag n
        { s with data := aerase s.data key, tagIndex := r.1 } r.2 (j + 1) (d + 1)

/-- Go `InvalidateByTag`. -/
def InvalidateByTag (s : Cache) (tag : String) : Nat × Cache :=
  match alookup s.tagIndex tag with
  | none => (0, s)
  | some keys =>
    let r := invLoop tag keys.length s keys 0 0
    let s' := { r.1 with tagIndex := aerase r.1.tagIndex tag }
    (r.2.2, { s' with totalItems := s'.data.length })

/-- Reduction of an `Int` into the signed 64-bit range (Go `int64`
arithmetic wraps). -/
def int64wrap (x : Int) : Int := (x + 2 ^ 63) % 2 ^ 64 - 2 ^ 63

/-- The TTL computation of Go `handleSet`: `time.Duration(req.TTL) *
time.Second`, with a request TTL of exactly zero coerced to the configured
default. -/
def handleSetTTL (reqTTL defaultTTL : Int) : Int :=
  if reqTTL = 0 then defaultTTL else int64wrap (reqTTL * 1000000000)

/-- Occurrence count of a string in a list. -/
def cnt (k : String) : List String → Nat
  | [] => 0
  | x :: l => (if x = k then 1 else 0) + cnt k l

/-- Number of times the pair `(t, k)` occurs in the tag index. -/
def bucketCount (idx : TagIndex) (t k : String) : Nat := cnt k (lookupTag idx t)

/-- Number of times tag `t` occurs in the tag list of the live entry at `k`
(zero when `k` is absent). -/
def tagsCount (d : Store) (k t : String) : Nat :=
  match alookup d k with
  | some item => cnt t item.tags
  | none => 0

def keysOf {α : Type} (l : List (String × α)) : List String := l.map Prod.fst

/-- Well-formedness of a store / tag-index pair, as maintained by the engine:
unique map keys, no empty buckets, and the multiset correspondence between
bucket occurrences of a key and tag occurrences in that entry's tag list. -/
def Inv (d : Store) (idx : TagIndex) : Prop :=
  (keysOf d).Nodup ∧ (keysOf idx).Nodup ∧
  (∀ tb ∈ idx, tb.2 ≠ [] ∧ ∀ k ∈ tb.2, tagsCount d k tb.1 = cnt k tb.2) ∧
  (∀ kv ∈ d, ∀ t ∈ kv.2.tags, bucketCount idx t kv.1 = cnt t kv.2.tags)

instance (d : Store) (idx : TagIndex) : Decidable (Inv d idx) := by
  unfold Inv; infer_instance

def WF (s : Cache) : Prop := Inv s.data s.tagIndex

instance (s : Cache) : Decidable (WF s) := by
  unfold WF; infer_instance

/-- The Store/Tag-Index consistency invariant as the specification states it:
every live entry's tags are indexed, every indexed pair points at a live
entry bearing the tag, and no bucket is empty. -/
def TagInvariant (d : Store) (idx : TagIndex) : Prop :=
  (∀ kv ∈ d, ∀ t ∈ kv.2.tags, kv.1 ∈ lookupTag idx t) ∧
  (∀ tb ∈ idx, ∀ k ∈ tb.2, 0 < tagsCount d k tb.1) ∧
  (∀ tb ∈ idx, tb.2 ≠ [])

instance (d : Store) (idx : TagIndex) : Decidable (TagInvariant d idx) := by
  unfold TagInvariant; infer_instance

/-! ### Counting and list helper lemmas -/

@[simp]
theorem cnt_nil (k : String) : cnt k [] = 0 := rfl

@[simp]
theorem cnt_cons (k x : String) (l : List String) :
    cnt k (x :: l) = (if x = k then 1 else 0) + cnt k l := rfl

theorem cnt_append (k : String) (l₁ l₂ : List String) :
    cnt k (l₁ ++ l₂) = cnt k l₁ + cnt k l₂ := by
  induction l₁ with
  | nil => simp
  | cons x l ih => simp [ih]; omega

theorem cnt_pos_iff_mem {k : String} {l : List String} :
    0 < cnt k l ↔ k ∈ l := by
  induction l with
  | nil => simp
  | cons x l ih =>
    by_cases h : x = k
    · subst h; simp
    · simp [h, ih, Ne.symm h]

theorem cnt_eq_zero_iff {k : String} {l : List String} :
    cnt k l = 0 ↔ k ∉ l := by
  rw [← cnt_pos_iff_mem]; omega

theorem removeKeyOnce_of_not_mem {l : List String} {key : String}
    (h : key ∉ l) : removeKeyOnce l key = l := by
  induction l with
  | nil => rfl
  | cons x l ih =>
    simp only [List.mem_cons, not_or] at h
    simp [removeKeyOnce, Ne.symm h.1, ih h.2]

theorem cnt_removeKeyOnce_self (l : List String) (key : String) :
    cnt key (removeKeyOnce l key) = cnt key l - 1 := by
  induction l with
  | nil => rfl
  | cons x l ih =>
    by_cases h : x = key
    · subst h; simp [removeKeyOnce]
    · simp [removeKeyOnce, h, ih]

theorem cnt_removeKeyOnce_ne {k key : String} (h : k ≠ key)
    (l : List String) : cnt k (removeKeyOnce l key) = cnt k l := by
  induction l with
  | nil => rfl
  | cons x l ih =>
    by_cases hx : x = key
    · subst hx; simp [removeKeyOnce, Ne.symm h]
    · simp [removeKeyOnce, hx, ih]

theorem length_removeKeyOnce_of_mem {l : List String} {key : String}
    (h : key ∈ l) : (removeKeyOnce l key).length + 1 = l.length := by
  induction l with
  | nil => cases h
  | cons x l ih =>
    by_cases hx : x = key
    · subst hx; simp [removeKeyOnce]
    · have : key ∈ l := by
        rcases List.mem_cons.mp h with h' | h'
        · exact absurd h'.symm hx
        · exact h'
      simp [removeKeyOnce, hx, ih this]

/-! ### Association-list lemmas -/

@[simp]
theorem keysOf_nil {α : Type} : keysOf ([] : List (String × α)) = [] := rfl

@[simp]
theorem keysOf_cons {α : Type} (p : String × α) (l : List (String × α)) :
    keysOf (p :: l) = p.1 :: keysOf l := rfl

theorem alookup_eq_none_iff {α : Type} {l : List (String × α)} {k : String} :
    alookup l k = none ↔ k ∉ keysOf l := by
  induction l with
  | nil => simp [alookup]
  | cons p l ih =>
    obtain ⟨k', v⟩ := p
    by_cases h : k' = k
    · subst h; simp [alookup]
    · simp [alookup, h, ih, Ne.symm h]

theorem mem_of_alookup_eq_some {α : Type} {l : List (String × α)}
    {k : String} {v : α} (h : alookup l k = some v) : (k, v) ∈ l := by
  induction l with
  | nil => simp [alookup] at h
  | cons p l ih =>
    obtain ⟨k', w⟩ := p
    by_cases hk : k' = k
    · subst hk
      simp [alookup] at h
      simp [h]
    · simp [alookup, hk] at h
      exact List.mem_cons_of_mem _ (ih h)

theorem alookup_of_mem_nodup {α : Type} {l : List (String × α)}
    (hn : (keysOf l).Nodup) {k : String} {v : α} (hm : (k, v) ∈ l) :
    alookup l k = some v := by
  induction l with
  | nil => cases hm
  | cons p l ih =>
    obtain ⟨k', w⟩ := p
    simp only [keysOf_cons, List.nodup_cons] at hn
    rcases List.mem_cons.mp hm with h | h
    · obtain ⟨h1, h2⟩ := Prod.mk.injEq .. ▸ h
      cases h
      simp [alookup]
    · have hk : k' ≠ k := by
        rintro rfl
        exact hn.1 (List.mem_map_of_mem Prod.fst h)
      simp [alookup, hk, ih hn.2 h]

@[simp]
theorem alookup_ainsert_self {α : Type} (l : List (String × α)) (k : String)
    (v : α) : alookup (ainsert l k v) k = some v := by
  induction l with
  | nil => simp [ainsert, alookup]
  | cons p l ih =>
    obtain ⟨k', w⟩ := p
    by_cases h : k' = k
    · subst h; simp [ainsert, alookup]
    · simp [ainsert, h, alookup, ih]

theorem alookup_ainsert_ne {α : Type} {k k' : String} (h : k' ≠ k)
    (l : List (String × α)) (v : α) :
    alookup (ainsert l k v) k' = alookup l k' := by
  induction l with
  | nil => simp [ainsert, alookup, Ne.symm h]
  | cons p l ih =>
    obtain ⟨k'', w⟩ := p
    by_cases hk : k'' = k
    · subst hk; simp [ainsert, alookup, Ne.symm h]
    · by_cases hk' : k'' = k'
      · subst hk'; simp [ainsert, hk, alookup]
      · simp [ainsert, hk, alookup, hk', ih]

theorem keysOf_ainsert_of_mem {α : Type} {l : List (String × α)} {k : String}
    (h : k ∈ keysOf l) (v : α) : keysOf (ainsert l k v) = keysOf l := by
  induction l with
  | nil => cases h
  | cons p l ih =>
    obtain ⟨k', w⟩ := p
    by_cases hk : k' = k
    · subst hk; simp [ainsert]
    · have : k ∈ keysOf l := by
        rcases List.mem_cons.mp h with h' | h'
        · exact absurd h'.symm hk
        · exact h'
      simp [ainsert, hk, ih this]

theorem keysOf_ainsert_of_not_mem {α : Type} {l : List (String × α)}
    {k : String} (h : k ∉ keysOf l) (v : α) :
    keysOf (ainsert l k v) = keysOf l ++ [k] := by
  induction l with
  | nil => simp [ainsert]
  | cons p l ih =>
    obtain ⟨k', w⟩ := p
    simp only [keysOf_cons, List.mem_cons, not_or] at h
    simp [ainsert, Ne.symm h.1, ih h.2]

theorem mem_ainsert {α : Type} {l : List (String × α)} {k : String} {v : α}
    {p : String × α} (h : p ∈ ainsert l k v) : p = (k, v) ∨ p ∈ l := by
  induction l with
  | nil => simpa [ainsert] using h
  | cons q l ih =>
    obtain ⟨k', w⟩ := q
    by_cases hk : k' = k
    · subst hk
      simp only [ainsert, if_pos rfl] at h
      rcases List.mem_cons.mp h with h' | h'
      · exact Or.inl h'
      · exact Or.inr (List.mem_cons_of_mem _ h')
    · simp only [ainsert, if_neg hk] at h
      rcases List.mem_cons.mp h with h' | h'
      · exact Or.inr (h' ▸ List.mem_cons_self _ _)
      · rcases ih h' with h'' | h''
        · exact Or.inl h''
        · exact Or.inr (List.mem_cons_of_mem _ h'')

theorem aupdate_of_not_mem {α : Type} {l : List (String × α)} {k : String}
    (h : k ∉ keysOf l) (v : α) : aupdate l k v = l := by
  induction l with
  | nil => rfl
  | cons p l ih =>
    obtain ⟨k', w⟩ := p
    simp only [keysOf_cons, List.mem_cons, not_or] at h
    simp [aupdate, Ne.symm h.1, ih h.2]

theorem alookup_aupdate_self {α : Type} {l : List (String × α)} {k : String}
    (h : k ∈ keysOf l) (v : α) : alookup (aupdate l k v) k = some v := by
  induction l with
  | nil => cases h
  | cons p l ih =>
    obtain ⟨k', w⟩ := p
    by_cases hk : k' = k
    · subst hk; simp [aupdate, alookup]
    · have : k ∈ keysOf l := by
        rcases List.mem_cons.mp h with h' | h'
        · exact absurd h'.symm hk
        · exact h'
      simp [aupdate, hk, alookup, ih this]

theorem alookup_aupdate_ne {α : Type} {k k' : String} (h : k' ≠ k)
    (l : List (String × α)) (v : α) :
    alookup (aupdate l k v) k' = alookup l k' := by
  induction l with
  | nil => rfl
  | cons p l ih =>
    obtain ⟨k'', w⟩ := p
    by_cases hk : k'' = k
    · subst hk; simp [aupdate, alookup, Ne.symm h]
    · by_cases hk' : k'' = k'
      · subst hk'; simp [aupdate, hk, alookup]
      · simp [aupdate, hk, alookup, hk', ih]

@[simp]
theorem keysOf_aupdate {α : Type} (l : List (String × α)) (k : String)
    (v : α) : keysOf (aupdate l k v) = keysOf l := by
  induction l with
  | nil => rfl
  | cons p l ih =>
    obtain ⟨k', w⟩ := p
    by_cases hk : k' = k
    · subst hk; simp [aupdate]
    · simp [aupdate, hk, ih]

theorem mem_aupdate {α : Type} {l : List (String × α)} {k : String} {v : α}
    {p : String × α} (h : p ∈ aupdate l k v) : p = (k, v) ∨ p ∈ l := by
  induction l with
  | nil => cases h
  | cons q l ih =>
    obtain ⟨k', w⟩ := q
    by_cases hk : k' = k
    · subst hk
      simp only [aupdate, if_pos rfl] at h
      rcases List.mem_cons.mp h with h' | h'
      · exact Or.inl h'
      · exact Or.inr (List.mem_cons_of_mem _ h')
    · simp only [aupdate, if_neg hk] at h
      rcases List.mem_cons.mp h with h' | h'
      · exact Or.inr (h' ▸ List.mem_cons_self _ _)
      · rcases ih h' with h'' | h''
        · exact Or.inl h''
        · exact Or.inr (List.mem_cons_of_mem _ h'')

theorem aerase_sublist {α : Type} (l : List (String × α)) (k : String) :
    List.Sublist (aerase l k) l := by
  induction l with
  | nil => exact List.Sublist.refl _
  | cons p l ih =>
    obtain ⟨k', w⟩ := p
    by_cases hk : k' = k
    · subst hk
      simp only [aerase, if_pos rfl]
      exact List.sublist_cons_self _ _
    · simp only [aerase, if_neg hk]
      exact List.Sublist.cons₂ _ ih

theorem mem_aerase {α : Type} {l : List (String × α)} {k : String}
    {p : String × α} (h : p ∈ aerase l k) : p ∈ l :=
  (aerase_sublist l k).mem h

theorem aerase_of_not_mem {α : Type} {l : List (String × α)} {k : String}
    (h : k ∉ keysOf l) : aerase l k = l := by
  induction l with
  | nil => rfl
  | cons p l ih =>
    obtain ⟨k', w⟩ := p
    simp only [keysOf_cons, List.mem_cons, not_or] at h
    simp [aerase, Ne.symm h.1, ih h.2]

theorem alookup_aerase_self {α : Type} {l : List (String × α)}
    (hn : (keysOf l).Nodup) (k : String) : alookup (aerase l k) k = none := by
  induction l with
  | nil => rfl
  | cons p l ih =>
    obtain ⟨k', w⟩ := p
    simp only [keysOf_cons, List.nodup_cons] at hn
    by_cases hk : k' = k
    · subst hk
      simp only [aerase, if_pos rfl]
      exact alookup_eq_none_iff.mpr hn.1
    · simp [aerase, hk, alookup, ih hn.2]

theorem alookup_aerase_ne {α : Type} {k k' : String} (h : k' ≠ k)
    (l : List (String × α)) : alookup (aerase l k) k' = alookup l k' := by
  induction l with
  | nil => rfl
  | cons p l ih =>
    obtain ⟨k'', w⟩ := p
    by_cases hk : k'' = k
    · subst hk; simp [aerase, alookup, Ne.symm h]
    · by_cases hk' : k'' = k'
      · subst hk'; simp [aerase, hk, alookup]
      · simp [aerase, hk, alookup, hk', ih]

theorem keysOf_aerase_nodup {α : Type} {l : List (String × α)}
    (hn : (keysOf l).Nodup) (k : String) : (keysOf (aerase l k)).Nodup :=
  hn.sublist ((aerase_sublist l k).map Prod.fst)

theorem length_aerase_of_mem {α : Type} {l : List (String × α)} {k : String}
    (h : k ∈ keysOf l) : (aerase l k).length + 1 = l.length := by
  induction l with
  | nil => cases h
  | cons p l ih =>
    obtain ⟨k', w⟩ := p
    by_cases hk : k' = k
    · subst hk; simp [aerase]
    · have : k ∈ keysOf l := by
        rcases List.mem_cons.mp h with h' | h'
        · exact absurd h'.symm hk
        · exact h'
      simp [aerase, hk, ih this]

/-! ### Tag-index operation lemmas -/

theorem alookup_mem_keysOf {α : Type} {l : List (String × α)} {k : String}
    {v : α} (h : alookup l k = some v) : k ∈ keysOf l :=
  List.mem_map_of_mem Prod.fst (mem_of_alookup_eq_some h)

theorem lookupTag_of_eq_none {idx : TagIndex} {tag : String}
    (h : alookup idx tag = none) : lookupTag idx tag = [] := by
  simp [lookupTag, h]

theorem lookupTag_of_eq_some {idx : TagIndex} {tag : String}
    {b : List String} (h : alookup idx tag = some b) : lookupTag idx tag = b := by
  simp [lookupTag, h]

theorem removeTagStep_of_not_mem {idx : TagIndex} {tag : String}
    (h : tag ∉ keysOf idx) (key : String) : removeTagStep idx key tag = idx := by
  have hl : alookup idx tag = none := alookup_eq_none_iff.mpr h
  simp [removeTagStep, lookupTag_of_eq_none hl, removeKeyOnce,
    aupdate_of_not_mem h, aerase_of_not_mem h]

theorem bucketCount_removeTagStep_self {idx : TagIndex}
    (hn : (keysOf idx).Nodup) (key tag : String) :
    bucketCount (removeTagStep idx key tag) tag key =
      bucketCount idx tag key - 1 := by
  cases h : alookup idx tag with
  | none =>
    have hm : tag ∉ keysOf idx := alookup_eq_none_iff.mp h
    rw [removeTagStep_of_not_mem hm]
    simp [bucketCount, lookupTag_of_eq_none h]
  | some b =>
    have hm : tag ∈ keysOf idx := alookup_mem_keysOf h
    have h1 : alookup (aupdate idx tag (removeKeyOnce b key)) tag
        = some (removeKeyOnce b key) := alookup_aupdate_self hm _
    simp only [removeTagStep, lookupTag_of_eq_some h, lookupTag_of_eq_some h1]
    by_cases he : removeKeyOnce b key = []
    · rw [if_pos he]
      have hn' : (keysOf (aupdate idx tag (removeKeyOnce b key))).Nodup := by
        rw [keysOf_aupdate]; exact hn
      have h2 : alookup (aerase (aupdate idx tag (removeKeyOnce b key)) tag) tag
          = none := alookup_aerase_self hn' tag
      have h3 := cnt_removeKeyOnce_self b key
      rw [he] at h3
      simp only [cnt_nil] at h3
      simp [bucketCount, lookupTag_of_eq_none h2, lookupTag_of_eq_some h, ← h3]
    · rw [if_neg he]
      simp [bucketCount, lookupTag_of_eq_some h1, lookupTag_of_eq_some h,
        cnt_removeKeyOnce_self]

theorem bucketCount_removeTagStep_ne {idx : TagIndex}
    (hn : (keysOf idx).Nodup) (key tag t k : String)
    (hne : t ≠ tag ∨ k ≠ key) :
    bucketCount (removeTagStep idx key tag) t k = bucketCount idx t k := by
  cases h : alookup idx tag with
  | none =>
    rw [removeTagStep_of_not_mem (alookup_eq_none_iff.mp h)]
  | some b =>
    have hm : tag ∈ keysOf idx := alookup_mem_keysOf h
    have h1 : alookup (aupdate idx tag (removeKeyOnce b key)) tag
        = some (removeKeyOnce b key) := alookup_aupdate_self hm _
    simp only [removeTagStep, lookupTag_of_eq_some h, lookupTag_of_eq_some h1]
    by_cases ht : t = tag
    · subst ht
      rcases hne with hne | hne
      · exact absurd rfl hne
      · by_cases he : removeKeyOnce b key = []
        · rw [if_pos he]
          have hn' : (keysOf (aupdate idx t (removeKeyOnce b key))).Nodup := by
            rw [keysOf_aupdate]; exact hn
          have h2 : alookup (aerase (aupdate idx t (removeKeyOnce b key)) t) t
              = none := alookup_aerase_self hn' t
          have h3 := cnt_removeKeyOnce_ne hne b
          rw [he] at h3
          simp only [cnt_nil] at h3
          simp [bucketCount, lookupTag_of_eq_none h2, lookupTag_of_eq_some h,
            ← h3]
        · rw [if_neg he]
          simp [bucketCount, lookupTag_of_eq_some h1, lookupTag_of_eq_some h,
            cnt_removeKeyOnce_ne hne]
    · by_cases he : removeKeyOnce b key = []
      · rw [if_pos he]
        have h2 : alookup (aerase (aupdate idx tag (removeKeyOnce b key)) tag) t
            = alookup idx t := by
          rw [alookup_aerase_ne ht, alookup_aupdate_ne ht]
        simp [bucketCount, lookupTag, h2]
      · rw [if_neg he]
        simp [bucketCount, lookupTag, alookup_aupdate_ne ht]

theorem keysOf_removeTagStep_nodup {idx : TagIndex}
    (hn : (keysOf idx).Nodup) (key tag : String) :
    (keysOf (removeTagStep idx key tag)).Nodup := by
  simp only [removeTagStep]
  by_cases h : lookupTag (aupdate idx tag (removeKeyOnce (lookupTag idx tag) key)) tag = []
  · rw [if_pos h]
    exact keysOf_aerase_nodup (by rw [keysOf_aupdate]; exact hn) _
  · rw [if_neg h]
    rw [keysOf_aupdate]; exact hn

theorem buckets_removeTagStep {idx : TagIndex} (hn : (keysOf idx).Nodup)
    (hne : ∀ tb ∈ idx, tb.2 ≠ []) (key tag : String) :
    ∀ tb ∈ removeTagStep idx key tag, tb.2 ≠ [] := by
  intro tb htb
  cases h : alookup idx tag with
  | none =>
    rw [removeTagStep_of_not_mem (alookup_eq_none_iff.mp h)] at htb
    exact hne tb htb
  | some b =>
    have hm : tag ∈ keysOf idx := alookup_mem_keysOf h
    have h1 : alookup (aupdate idx tag (removeKeyOnce b key)) tag
        = some (removeKeyOnce b key) := alookup_aupdate_self hm _
    simp only [removeTagStep, lookupTag_of_eq_some h, lookupTag_of_eq_some h1]
      at htb
    by_cases he : removeKeyOnce b key = []
    · rw [if_pos he] at htb
      have hn' : (keysOf (aupdate idx tag (removeKeyOnce b key))).Nodup := by
        rw [keysOf_aupdate]; exact hn
      have h2 : alookup (aerase (aupdate idx tag (removeKeyOnce b key)) tag) tag
          = none := alookup_aerase_self hn' tag
      have htb' := mem_aerase htb
      rcases mem_aupdate htb' with h3 | h3
      · exfalso
        have : tb.1 ∉ keysOf (aerase (aupdate idx tag (removeKeyOnce b key)) tag) := by
          rw [h3]
          exact alookup_eq_none_iff.mp h2
        exact this (List.mem_map_of_mem Prod.fst htb)
      · exact hne tb h3
    · rw [if_neg he] at htb
      rcases mem_aupdate htb with h3 | h3
      · rw [h3]; exact he
      · exact hne tb h3

theorem keysOf_removeFromTagIndex_nodup {idx : TagIndex}
    (hn : (keysOf idx).Nodup) (key : String) (tags : List String) :
    (keysOf (removeFromTagIndex idx key tags)).Nodup := by
  induction tags generalizing idx with
  | nil => exact hn
  | cons tg rest ih =>
    rw [removeFromTagIndex, List.foldl_cons]
    exact ih (keysOf_removeTagStep_nodup hn key tg)

theorem buckets_removeFromTagIndex {idx : TagIndex} (hn : (keysOf idx).Nodup)
    (hne : ∀ tb ∈ idx, tb.2 ≠ []) (key : String) (tags : List String) :
    ∀ tb ∈ removeFromTagIndex idx key tags, tb.2 ≠ [] := by
  induction tags generalizing idx with
  | nil => exact hne
  | cons tg rest ih =>
    rw [removeFromTagIndex, List.foldl_cons]
    exact ih (keysOf_removeTagStep_nodup hn key tg)
      (buckets_removeTagStep hn hne key tg)

theorem bucketCount_removeFromTagIndex_self {idx : TagIndex}
    (hn : (keysOf idx).Nodup) (key : String) (tags : List String)
    (t : String) :
    bucketCount (removeFromTagIndex idx key tags) t key =
      bucketCount idx t key - cnt t tags := by
  induction tags generalizing idx with
  | nil => simp [removeFromTagIndex]
  | cons tg rest ih =>
    rw [removeFromTagIndex, List.foldl_cons]
    have step := ih (keysOf_removeTagStep_nodup hn key tg)
    rw [removeFromTagIndex] at step
    rw [step]
    by_cases ht : tg = t
    · subst ht
      have h1 := bucketCount_removeTagStep_self hn key tg
      have h2 : cnt tg (tg :: rest) = 1 + cnt tg rest := by simp
      omega
    · have h1 := bucketCount_removeTagStep_ne hn key tg t key
        (Or.inl (Ne.symm ht))
      have h2 : cnt t (tg :: rest) = cnt t rest := by simp [ht]
      omega

theorem bucketCount_removeFromTagIndex_ne {idx : TagIndex}
    (hn : (keysOf idx).Nodup) {key k : String} (hk : k ≠ key)
    (tags : List String) (t : String) :
    bucketCount (removeFromTagIndex idx key tags) t k =
      bucketCount idx t k := by
  induction tags generalizing idx with
  | nil => rfl
  | cons tg rest ih =>
    rw [removeFromTagIndex, List.foldl_cons]
    have step := ih (keysOf_removeTagStep_nodup hn key tg)
    rw [removeFromTagIndex] at step
    rw [step, bucketCount_removeTagStep_ne hn key tg t k (Or.inr hk)]

theorem bucketCount_addStep (idx : TagIndex) (key tag t k : String) :
    bucketCount (ainsert idx tag (lookupTag idx tag ++ [key])) t k =
      bucketCount idx t k + (if t = tag ∧ k = key then 1 else 0) := by
  by_cases ht : t = tag
  · subst ht
    rw [bucketCount, lookupTag_of_eq_some (alookup_ainsert_self idx t _),
      cnt_append]
    simp only [bucketCount, cnt_cons, cnt_nil]
    by_cases hk : k = key
    · subst hk; simp
    · simp [hk, Ne.symm hk]
  · rw [bucketCount, lookupTag, alookup_ainsert_ne ht]
    simp [bucketCount, lookupTag, ht]

theorem bucketCount_addToTagIndex (idx : TagIndex) (key : String)
    (tags : List String) (t k : String) :
    bucketCount (addToTagIndex idx key tags) t k =
      bucketCount idx t k + (if k = key then cnt t tags else 0) := by
  induction tags generalizing idx with
  | nil => simp [addToTagIndex]
  | cons tg rest ih =>
    rw [addToTagIndex, List.foldl_cons]
    have step := ih (ainsert idx tg (lookupTag idx tg ++ [key]))
    rw [addToTagIndex] at step
    rw [step, bucketCount_addStep]
    by_cases hk : k = key
    · subst hk
      by_cases ht : t = tg
      · subst ht; simp; omega
      · simp [ht, Ne.symm ht]
    · simp [hk]

theorem keysOf_addToTagIndex_nodup {idx : TagIndex}
    (hn : (keysOf idx).Nodup) (key : String) (tags : List String) :
    (keysOf (addToTagIndex idx key tags)).Nodup := by
  induction tags generalizing idx with
  | nil => exact hn
  | cons tg rest ih =>
    rw [addToTagIndex, List.foldl_cons]
    refine ih ?_
    by_cases hm : tg ∈ keysOf idx
    · rw [keysOf_ainsert_of_mem hm]; exact hn
    · rw [keysOf_ainsert_of_not_mem hm]
      simp [List.nodup_append, hn, hm]

theorem buckets_addToTagIndex {idx : TagIndex}
    (hne : ∀ tb ∈ idx, tb.2 ≠ []) (key : String) (tags : List String) :
    ∀ tb ∈ addToTagIndex idx key tags, tb.2 ≠ [] := by
  induction tags generalizing idx with
  | nil => exact hne
  | cons tg rest ih =>
    rw [addToTagIndex, List.foldl_cons]
    refine ih ?_
    intro tb htb
    rcases mem_ainsert htb with h | h
    · rw [h]; simp
    · exact hne tb h

/-! ### Store operation lemmas for `tagsCount` -/

theorem tagsCount_aerase_self {d : Store} (hn : (keysOf d).Nodup)
    (key t : String) : tagsCount (aerase d key) key t = 0 := by
  simp [tagsCount, alookup_aerase_self hn]

theorem tagsCount_aerase_ne {k key : String} (h : k ≠ key) (d : Store)
    (t : String) : tagsCount (aerase d key) k t = tagsCount d k t := by
  simp [tagsCount, alookup_aerase_ne h]

theorem tagsCount_ainsert_self (d : Store) (key : String) (item : CacheItem)
    (t : String) : tagsCount (ainsert d key item) key t = cnt t item.tags := by
  simp [tagsCount]

theorem tagsCount_ainsert_ne {k key : String} (h : k ≠ key) (d : Store)
    (item : CacheItem) (t : String) :
    tagsCount (ainsert d key item) k t = tagsCount d k t := by
  simp [tagsCount, alookup_ainsert_ne h]

theorem tagsCount_pos {d : Store} {k t : String} (h : 0 < tagsCount d k t) :
    ∃ item, alookup d k = some item ∧ t ∈ item.tags := by
  unfold tagsCount at h
  cases hl : alookup d k with
  | none => rw [hl] at h; cases h
  | some item =>
    rw [hl] at h
    exact ⟨item, rfl, cnt_pos_iff_mem.mp h⟩

/-! ### The invariant in count form, and its preservation -/

/-- Count form of `Inv`: instead of quantifying over list members, it equates
the two counting functions everywhere. -/
def Invc (d : Store) (idx : TagIndex) : Prop :=
  (keysOf d).Nodup ∧ (keysOf idx).Nodup ∧
  (∀ tb ∈ idx, tb.2 ≠ []) ∧
  ∀ t k, bucketCount idx t k = tagsCount d k t

theorem Inv_iff_Invc (d : Store) (idx : TagIndex) : Inv d idx ↔ Invc d idx := by
  constructor
  · rintro ⟨hd, hi, hb, he⟩
    refine ⟨hd, hi, fun tb htb => (hb tb htb).1, ?_⟩
    intro t k
    cases h : alookup idx t with
    | none =>
      have h0 : bucketCount idx t k = 0 := by
        simp [bucketCount, lookupTag_of_eq_none h]
      rw [h0]
      by_contra hne
      have hpos : 0 < tagsCount d k t :=
        Nat.pos_of_ne_zero fun h' => hne h'.symm
      obtain ⟨item, hl, ht⟩ := tagsCount_pos hpos
      have heq := he (k, item) (mem_of_alookup_eq_some hl) t ht
      have : 0 < bucketCount idx t k := by
        rw [heq]; exact cnt_pos_iff_mem.mpr ht
      omega
    | some b =>
      have htb : (t, b) ∈ idx := mem_of_alookup_eq_some h
      by_cases hk : k ∈ b
      · have hq := (hb (t, b) htb).2 k hk
        simp only [bucketCount, lookupTag_of_eq_some h]
        exact hq.symm
      · have h0 : bucketCount idx t k = 0 := by
          simp [bucketCount, lookupTag_of_eq_some h, cnt_eq_zero_iff.mpr hk]
        rw [h0]
        by_contra hne
        have hpos : 0 < tagsCount d k t :=
          Nat.pos_of_ne_zero fun h' => hne h'.symm
        obtain ⟨item, hl, ht⟩ := tagsCount_pos hpos
        have heq := he (k, item) (mem_of_alookup_eq_some hl) t ht
        have : 0 < bucketCount idx t k := by
          rw [heq]; exact cnt_pos_iff_mem.mpr ht
        omega
  · rintro ⟨hd, hi, hb, he⟩
    refine ⟨hd, hi, ?_, ?_⟩
    · rintro ⟨t, b⟩ htb
      refine ⟨hb (t, b) htb, ?_⟩
      intro k hk
      have hl : alookup idx t = some b := alookup_of_mem_nodup hi htb
      have := he t k
      simp only [bucketCount, lookupTag_of_eq_some hl] at this
      exact this.symm
    · rintro ⟨k, item⟩ hkv t ht
      have hl : alookup d k = some item := alookup_of_mem_nodup hd hkv
      have := he t k
      simp only [tagsCount, hl] at this
      exact this

theorem Invc_tagInvariant {d : Store} {idx : TagIndex} (h : Invc d idx) :
    TagInvariant d idx := by
  obtain ⟨hd, hi, hb, he⟩ := h
  refine ⟨?_, ?_, hb⟩
  · rintro ⟨k, item⟩ hkv t ht
    have hl : alookup d k = some item := alookup_of_mem_nodup hd hkv
    have hc := he t k
    simp only [tagsCount, hl] at hc
    have : 0 < bucketCount idx t k := by
      rw [hc]; exact cnt_pos_iff_mem.mpr ht
    exact cnt_pos_iff_mem.mp this
  · rintro ⟨t, b⟩ htb k hk
    have hl : alookup idx t = some b := alookup_of_mem_nodup hi htb
    have hc := he t k
    simp only [bucketCount, lookupTag_of_eq_some hl] at hc
    rw [← hc]
    exact cnt_pos_iff_mem.mpr hk

/-- Removing an entry together with its tag associations preserves the
invariant; `tags` must be the stored entry's tag list whenever the key is
still present. -/
theorem Invc_scrub {d : Store} {idx : TagIndex} (h : Invc d idx)
    (key : String) (tags : List String)
    (htags : ∀ item, alookup d key = some item → tags = item.tags) :
    Invc (aerase d key) (removeFromTagIndex idx key tags) := by
  obtain ⟨hd, hi, hb, he⟩ := h
  refine ⟨keysOf_aerase_nodup hd key, keysOf_removeFromTagIndex_nodup hi key tags,
    buckets_removeFromTagIndex hi hb key tags, ?_⟩
  intro t k
  by_cases hk : k = key
  · subst hk
    rw [bucketCount_removeFromTagIndex_self hi k tags t, he t k,
      tagsCount_aerase_self hd k t]
    cases hl : alookup d k with
    | none => simp [tagsCount, hl]
    | some item => simp [tagsCount, hl, htags item hl]
  · rw [bucketCount_removeFromTagIndex_ne hi hk tags t, he t k,
      tagsCount_aerase_ne hk d t]

/-- Inserting (or overwriting) an entry after scrubbing the old tag
associations and indexing the new tags preserves the invariant. -/
theorem Invc_set_core {d : Store} {idx : TagIndex} (h : Invc d idx)
    (key : String) (item : CacheItem) (oldTags : List String)
    (hold : ∀ old, alookup d key = some old → oldTags = old.tags) :
    Invc (ainsert d key item)
      (addToTagIndex (removeFromTagIndex idx key oldTags) key item.tags) := by
  obtain ⟨hd, hi, hb, he⟩ := h
  have hi' := keysOf_removeFromTagIndex_nodup hi key oldTags
  refine ⟨?_, keysOf_addToTagIndex_nodup hi' key item.tags,
    buckets_addToTagIndex (buckets_removeFromTagIndex hi hb key oldTags) key
      item.tags, ?_⟩
  · by_cases hm : key ∈ keysOf d
    · rw [keysOf_ainsert_of_mem hm]; exact hd
    · rw [keysOf_ainsert_of_not_mem hm]
      simp [List.nodup_append, hd, hm]
  · intro t k
    rw [bucketCount_addToTagIndex]
    by_cases hk : k = key
    · subst hk
      rw [if_pos rfl, bucketCount_removeFromTagIndex_self hi k oldTags t,
        he t k, tagsCount_ainsert_self d k item t]
      cases hl : alookup d k with
      | none => simp [tagsCount, hl]
      | some old => simp [tagsCount, hl, hold old hl]
    · rw [if_neg hk, bucketCount_removeFromTagIndex_ne hi hk oldTags t,
        he t k, tagsCount_ainsert_ne hk d item t]
      omega

/-- Overwriting an entry in place with one carrying the same tag list
preserves the invariant (the `Get` hit path). -/
theorem Invc_get_touch {d : Store} {idx : TagIndex} (h : Invc d idx)
    {key : String} {item item' : CacheItem}
    (hl : alookup d key = some item) (htags : item'.tags = item.tags) :
    Invc (ainsert d key item') idx := by
  obtain ⟨hd, hi, hb, he⟩ := h
  have hm : key ∈ keysOf d := alookup_mem_keysOf hl
  refine ⟨by rw [keysOf_ainsert_of_mem hm]; exact hd, hi, hb, ?_⟩
  intro t k
  by_cases hk : k = key
  · subst hk
    rw [tagsCount_ainsert_self d k item' t, htags, he t k]
    simp [tagsCount, hl]
  · rw [tagsCount_ainsert_ne hk d item' t]
    exact he t k

/-! ### Per-operation invariant preservation -/

theorem WF_Get (s : Cache) (key : String) (now : Int) (h : WF s) :
    WF (Get s key now).state := by
  rw [WF, Inv_iff_Invc] at h ⊢
  unfold Get
  cases hl : alookup s.data key with
  | none => exact h
  | some item =>
    by_cases he : IsExpired item now
    · simp only [he, if_true]
      exact h
    · simp only [he, Bool.false_eq_true, if_false]
      exact Invc_get_touch h hl rfl

theorem WF_Delete (s : Cache) (key : String) (h : WF s) :
    WF (Delete s key).2 := by
  rw [WF, Inv_iff_Invc] at h ⊢
  unfold Delete
  cases hl : alookup s.data key with
  | none => exact h
  | some item =>
    exact Invc_scrub h key item.tags
      (fun it hit => by rw [hl] at hit; cases hit; rfl)

theorem WF_evictLRU (s : Cache) (h : WF s) : WF (evictLRU s) := by
  rw [WF, Inv_iff_Invc] at h ⊢
  unfold evictLRU
  by_cases hk : (findOldest s.data).1 = ""
  · simp only [hk, if_true]
    exact h
  · simp only [hk, if_false]
    cases hl : alookup s.data (findOldest s.data).1 with
    | none =>
      simp only []
      exact Invc_scrub h (findOldest s.data).1 []
        (fun it hit => by rw [hl] at hit; cases hit)
    | some item =>
      exact Invc_scrub h (findOldest s.data).1 item.tags
        (fun it hit => by rw [hl] at hit; cases hit; rfl)

theorem WF_Set (s : Cache) (key value : String) (ttl : Int)
    (tags : List String) (now : Int) (h : WF s) :
    WF (Set s key value ttl tags now) := by
  have h1 : WF (if s.data.length ≥ s.maxSize then evictLRU s else s) := by
    by_cases hc : s.data.length ≥ s.maxSize
    · simp only [hc, if_true]; exact WF_evictLRU s h
    · simp only [hc, if_false]; exact h
  set s1 := if s.data.length ≥ s.maxSize then evictLRU s else s with hs1
  rw [WF, Inv_iff_Invc] at h1 ⊢
  unfold Set
  rw [← hs1]
  cases hl : alookup s1.data key with
  | none =>
    simp only [hl]
    exact Invc_set_core h1 key ⟨key, value, ttl, now, now, 1, tags, []⟩ []
      (fun old hold => by rw [hl] at hold; cases hold)
  | some old =>
    simp only [hl]
    exact Invc_set_core h1 key ⟨key, value, ttl, now, now, 1, tags, []⟩
      old.tags (fun o ho => by rw [hl] at ho; cases ho; rfl)

theorem Invc_cleanup_fold (now : Int) :
    ∀ (l : List (String × CacheItem)) (s : Cache),
      Invc s.data s.tagIndex →
      (∀ kv ∈ l, ∀ item, alookup s.data kv.1 = some item → item = kv.2) →
      Invc (l.foldl
        (fun acc kv =>
          if IsExpired kv.2 now then
            { acc with
                tagIndex := removeFromTagIndex acc.tagIndex kv.1 kv.2.tags
                data := aerase acc.data kv.1 }
          else acc) s).data
        (l.foldl
          (fun acc kv =>
            if IsExpired kv.2 now then
              { acc with
                  tagIndex := removeFromTagIndex acc.tagIndex kv.1 kv.2.tags
                  data := aerase acc.data kv.1 }
            else acc) s).tagIndex := by
  intro l
  induction l with
  | nil => intro s h _; exact h
  | cons kv rest ih =>
    intro s h hcond
    rw [List.foldl_cons]
    by_cases hexp : IsExpired kv.2 now
    · simp only [hexp, if_true]
      refine ih _ ?_ ?_
      · exact Invc_scrub h kv.1 kv.2.tags
          (fun it hit => by rw [hcond kv (List.mem_cons_self kv rest) it hit])
      · intro kv' hkv' item hitem
        by_cases hk : kv'.1 = kv.1
        · exfalso
          rw [hk] at hitem
          rw [alookup_aerase_self h.1 kv.1] at hitem
          cases hitem
        · rw [alookup_aerase_ne hk] at hitem
          exact hcond kv' (List.mem_cons_of_mem kv hkv') item hitem
    · simp only [hexp, Bool.false_eq_true, if_false]
      exact ih s h (fun kv' hkv' => hcond kv' (List.mem_cons_of_mem kv hkv'))

theorem WF_cleanup (s : Cache) (now : Int) (h : WF s) : WF (cleanup s now) := by
  rw [WF, Inv_iff_Invc] at h ⊢
  unfold cleanup
  exact Invc_cleanup_fold now s.data s h
    (fun kv hkv item hitem => by
      rw [alookup_of_mem_nodup h.1 hkv] at hitem
      cases hitem; rfl)

/-! ### Further helper lemmas -/

theorem WF_tagInvariant {s : Cache} (h : WF s) :
    TagInvariant s.data s.tagIndex :=
  Invc_tagInvariant ((Inv_iff_Invc _ _).mp h)

theorem length_ainsert_of_mem {α : Type} {l : List (String × α)} {k : String}
    (h : k ∈ keysOf l) (v : α) : (ainsert l k v).length = l.length := by
  induction l with
  | nil => cases h
  | cons p l ih =>
    obtain ⟨k', w⟩ := p
    by_cases hk : k' = k
    · subst hk; simp [ainsert]
    · have : k ∈ keysOf l := by
        rcases List.mem_cons.mp h with h' | h'
        · exact absurd h'.symm hk
        · exact h'
      simp [ainsert, hk, ih this]

theorem length_ainsert_of_not_mem {α : Type} {l : List (String × α)}
    {k : String} (h : k ∉ keysOf l) (v : α) :
    (ainsert l k v).length = l.length + 1 := by
  induction l with
  | nil => simp [ainsert]
  | cons p l ih =>
    obtain ⟨k', w⟩ := p
    simp only [keysOf_cons, List.mem_cons, not_or] at h
    simp [ainsert, Ne.symm h.1, ih h.2]

theorem cleanup_fold_keeps (now : Int) (key : String) (item : CacheItem)
    (hexp : IsExpired item now = false) :
    ∀ (l : List (String × CacheItem)) (acc : Cache),
      alookup acc.data key = some item →
      (∀ kv ∈ l, kv.1 = key → kv.2 = item) →
      alookup (l.foldl
        (fun acc kv =>
          if IsExpired kv.2 now then
            { acc with
                tagIndex := removeFromTagIndex acc.tagIndex kv.1 kv.2.tags
                data := aerase acc.data kv.1 }
          else acc) acc).data key = some item := by
  intro l
  induction l with
  | nil => intro acc h _; exact h
  | cons kv rest ih =>
    intro acc hacc hcond
    rw [List.foldl_cons]
    by_cases hx : IsExpired kv.2 now
    · simp only [hx, if_true]
      refine ih _ ?_ fun kv' h' => hcond kv' (List.mem_cons_of_mem kv h')
      have hk : kv.1 ≠ key := by
        intro hc
        have h2 := hcond kv (List.mem_cons_self kv rest) hc
        rw [h2, hexp] at hx
        simp at hx
      show alookup (aerase acc.data kv.1) key = some item
      rw [alookup_aerase_ne (Ne.symm hk)]
      exact hacc
    · simp only [hx, Bool.false_eq_true, if_false]
      exact ih acc hacc fun kv' h' => hcond kv' (List.mem_cons_of_mem kv h')

theorem cleanup_keeps {s : Cache} {key : String} {item : CacheItem}
    (now : Int) (hn : (keysOf s.data).Nodup)
    (hl : alookup s.data key = some item) (hexp : IsExpired item now = false) :
    alookup (cleanup s now).data key = some item := by
  unfold cleanup
  exact cleanup_fold_keeps now key item hexp s.data s hl
    (fun kv hkv hk => by
      have h3 := hk ▸ alookup_of_mem_nodup hn hkv
      rw [hl] at h3
      injection h3 with h4
      exact h4.symm)

theorem invLoop_deletes (tag : String) :
    ∀ (n : Nat) (s : Cache) (A : List String) (j d : Nat),
      (invLoop tag n s A j d).1.deletes = s.deletes := by
  intro n
  induction n with
  | zero => intros; rfl
  | succ n ih =>
    intro s A j d
    rw [invLoop]
    cases h : alookup s.data (A.getD j "") with
    | none => simp only [h]; exact ih s A (j + 1) d
    | some item => simp only [h]; exact ih _ _ (j + 1) (d + 1)

theorem InvalidateByTag_deletes (s : Cache) (tag : String) :
    (InvalidateByTag s tag).2.deletes = s.deletes := by
  unfold InvalidateByTag
  cases h : alookup s.tagIndex tag with
  | none => simp [h]
  | some keys =>
    simp only [h]
    exact invLoop_deletes tag keys.length s keys 0 0

theorem evictLRU_deletes (s : Cache) : (evictLRU s).deletes = s.deletes := by
  unfold evictLRU
  by_cases h : (findOldest s.data).1 = ""
  · simp [h]
  · simp only [h, if_false]
    cases h2 : alookup s.data (findOldest s.data).1 <;> simp [h2]

theorem Set_deletes (s : Cache) (key value : String) (ttl : Int)
    (tags : List String) (now : Int) :
    (Set s key value ttl tags now).deletes = s.deletes := by
  have h1 : (if s.data.length ≥ s.maxSize then evictLRU s else s).deletes
      = s.deletes := by
    by_cases hc : s.data.length ≥ s.maxSize
    · simp [hc, evictLRU_deletes]
    · simp [hc]
  unfold Set
  cases h2 : alookup (if s.data.length ≥ s.maxSize then evictLRU s else s).data
      key with
  | none => simp only [h2]; exact h1
  | some old => simp only [h2]; exact h1

theorem cleanup_fold_deletes (now : Int) :
    ∀ (l : List (String × CacheItem)) (acc : Cache),
      (l.foldl
        (fun acc kv =>
          if IsExpired kv.2 now then
            { acc with
                tagIndex := removeFromTagIndex acc.tagIndex kv.1 kv.2.tags
                data := aerase acc.data kv.1 }
          else acc) acc).deletes = acc.deletes := by
  intro l
  induction l with
  | nil => intro acc; rfl
  | cons kv rest ih =>
    intro acc
    rw [List.foldl_cons]
    by_cases hx : IsExpired kv.2 now
    · simp only [hx, if_true]; exact ih _
    · simp only [hx, Bool.false_eq_true, if_false]; exact ih acc

theorem cleanup_deletes (s : Cache) (now : Int) :
    (cleanup s now).deletes = s.deletes := by
  unfold cleanup
  exact cleanup_fold_deletes now s.data s

theorem Get_deletes (s : Cache) (key : String) (now : Int) :
    (Get s key now).state.deletes = s.deletes := by
  unfold Get
  cases h : alookup s.data key with
  | none => rfl
  | some item =>
    by_cases he : IsExpired item now
    · simp [he]
    · simp [he]

theorem int64wrap_eq_self {x : Int} (h1 : -(2 ^ 63) ≤ x) (h2 : x < 2 ^ 63) :
    int64wrap x = x := by
  unfold int64wrap
  have h3 : (0 : Int) ≤ x + 2 ^ 63 := by omega
  have h4 : x + 2 ^ 63 < 2 ^ 64 := by omega
  rw [Int.emod_eq_of_lt h3 h4]
  omega

/-! ### Concrete states used to evaluate the model -/

/-- A never-expiring entry with the given key, tag list and access time. -/
def plainItem (k : String) (tg : List String) (acc : Int) : CacheItem :=
  ⟨k, "v", 0, 0, acc, 1, tg, []⟩

/-- Three entries all tagged `"t"`, bucket order a, b, c. -/
def invalState : Cache :=
  { data := [("a", plainItem "a" ["t"] 1), ("b", plainItem "b" ["t"] 2),
             ("c", plainItem "c" ["t"] 3)]
    tagIndex := [("t", ["a", "b", "c"])]
    maxSize := 10, hits := 0, misses := 0, sets := 0, deletes := 0
    evictions := 0, totalItems := 3 }

/-- Two untagged entries filling a capacity-2 cache. -/
def overState : Cache :=
  { data := [("a", plainItem "a" [] 1), ("b", plainItem "b" [] 2)]
    tagIndex := [], maxSize := 2, hits := 0, misses := 0, sets := 0
    deletes := 0, evictions := 0, totalItems := 2 }

/-- One entry with TTL 1ns created at time 0: expired at time 10. -/
def expiredState : Cache :=
  { data := [("k", ⟨"k", "v", 1, 0, 0, 1, [], []⟩)]
    tagIndex := [], maxSize := 10, hits := 0, misses := 0, sets := 0
    deletes := 0, evictions := 0, totalItems := 1 }

/-- A single entry whose key is the empty string, at capacity 1. -/
def sentinelState : Cache :=
  { data := [("", plainItem "" [] 1)]
    tagIndex := [], maxSize := 1, hits := 0, misses := 0, sets := 0
    deletes := 0, evictions := 0, totalItems := 1 }

/-- An empty cache with room to spare. -/
def dupState : Cache :=
  { data := [], tagIndex := [], maxSize := 10, hits := 0, misses := 0
    sets := 0, deletes := 0, evictions := 0, totalItems := 0 }

/-- One live, never-expiring entry `"h"`. -/
def hitState : Cache :=
  { data := [("h", plainItem "h" [] 0)]
    tagIndex := [], maxSize := 10, hits := 0, misses := 0, sets := 0
    deletes := 0, evictions := 0, totalItems := 1 }

/-- One tagged entry filling a capacity-1 cache. -/
def fullState : Cache :=
  { data := [("a", plainItem "a" ["t"] 1)]
    tagIndex := [("t", ["a"])], maxSize := 1, hits := 0, misses := 0
    sets := 0, deletes := 0, evictions := 0, totalItems := 1 }

/-- One entry with a negative TTL, created at time 0. -/
def negState : Cache :=
  { data := [("n", ⟨"n", "v", -5, 0, 0, 1, [], []⟩)]
    tagIndex := [], maxSize := 10, hits := 0, misses := 0, sets := 0
    deletes := 0, evictions := 0, totalItems := 1 }

/-! ### Claim C6 -/

/-- Claim C6: `get` behaves by three exhaustive cases.  If no entry exists it
records a miss and returns absent; if the entry is present but expired it
records a miss, schedules removal, and never returns the stale value;
otherwise it sets `accessed_at` to now, adds one to `access_count`, records a
hit and returns the updated entry. -/
theorem C6_get_three_cases (s : Cache) (key : String) (now : Int) :
    (alookup s.data key = none →
      (Get s key now).item = none ∧ (Get s key now).found = false ∧
      (Get s key now).state.misses = s.misses + 1 ∧
      (Get s key now).state.hits = s.hits ∧
      (Get s key now).scheduleDelete = false ∧
      (Get s key now).state.data = s.data) ∧
    (∀ item, alookup s.data key = some item → IsExpired item now = true →
      (Get s key now).item = none ∧ (Get s key now).found = false ∧
      (Get s key now).state.misses = s.misses + 1 ∧
      (Get s key now).state.hits = s.hits ∧
      (Get s key now).scheduleDelete = true) ∧
    (∀ item, alookup s.data key = some item → IsExpired item now = false →
      (Get s key now).found = true ∧
      (Get s key now).item =
        some { item with accessedAt := now,
                         accessCount := item.accessCount + 1 } ∧
      alookup (Get s key now).state.data key =
        some { item with accessedAt := now,
                         accessCount := item.accessCount + 1 } ∧
      (Get s key now).state.hits = s.hits + 1 ∧
      (Get s key now).state.misses = s.misses ∧
      (Get s key now).scheduleDelete = false) := by
  refine ⟨?_, ?_, ?_⟩
  · intro h
    simp [Get, h]
  · intro item h he
    simp [Get, h, he]
  · intro item h he
    simp [Get, h, he, alookup_ainsert_self]

/-- Witness for C6 at concrete inputs: an absent key, an expired entry, and a
live entry. -/
theorem C6_witness :
    (Get expiredState "z" 10).found = false ∧
    (Get expiredState "k" 10).scheduleDelete = true ∧
    (Get hitState "h" 10).found = true := by
  refine ⟨?_, ?_, ?_⟩
  · exact ((C6_get_three_cases expiredState "z" 10).1 (by decide)).2.1
  · exact (((C6_get_three_cases expiredState "k" 10).2.1
      ⟨"k", "v", 1, 0, 0, 1, [], []⟩ (by decide) (by decide))).2.2.2.2
  · exact (((C6_get_three_cases hitState "h" 10).2.2
      (plainItem "h" [] 0) (by decide) (by decide))).1

/-! ### Claim C7 -/

/-- Claim C7: an entry is expired at time `now` exactly when its TTL is
nonzero and `now - created_at > ttl`; an entry with TTL zero is never
expired, neither by the lazy check in `get` (it is a hit) nor by the
background sweeper (`cleanup` keeps it). -/
theorem C7_expiry_characterization (item : CacheItem) (now : Int) (s : Cache)
    (key : String) :
    (IsExpired item now = true ↔
      item.ttl ≠ 0 ∧ now - item.createdAt > item.ttl) ∧
    (item.ttl = 0 → IsExpired item now = false) ∧
    (item.ttl = 0 → (keysOf s.data).Nodup →
      alookup s.data key = some item →
      alookup (cleanup s now).data key = some item ∧
      (Get s key now).found = true) := by
  refine ⟨?_, ?_, ?_⟩
  · unfold IsExpired
    by_cases h : item.ttl = 0
    · simp [h]
    · simp [h]
  · intro h
    simp [IsExpired, h]
  · intro h hn hl
    have hexp : IsExpired item now = false := by simp [IsExpired, h]
    refine ⟨cleanup_keeps now hn hl hexp, ?_⟩
    simp [Get, hl, hexp]

/-- Witness for C7: the TTL-zero entry `"h"` survives a sweep and is a hit. -/
theorem C7_witness :
    alookup (cleanup hitState 1000).data "h" = some (plainItem "h" [] 0) ∧
    (Get hitState "h" 1000).found = true :=
  (C7_expiry_characterization (plainItem "h" [] 0) 1000 hitState "h").2.2
    (by decide) (by decide) (by decide)

/-! ### Claim C10 -/

/-- Claim C10 (implicit): an entry stored with a negative TTL is expired at
every time at or after its creation, so a `get` of it always records a miss
and never returns it as a hit; at the HTTP boundary only a request TTL of
exactly zero is coerced to the default, so a (non-overflowing) negative
request TTL reaches the engine as a negative duration. -/
theorem C10_negative_ttl (item : CacheItem) (now : Int) (s : Cache)
    (key : String) (reqTTL defaultTTL : Int) :
    (item.ttl < 0 → item.createdAt ≤ now → IsExpired item now = true) ∧
    (alookup s.data key = some item → item.ttl < 0 → item.createdAt ≤ now →
      (Get s key now).found = false ∧ (Get s key now).item = none ∧
      (Get s key now).state.misses = s.misses + 1 ∧
      (Get s key now).state.hits = s.hits ∧
      (Get s key now).scheduleDelete = true) ∧
    (reqTTL < 0 → -9223372036 ≤ reqTTL →
      handleSetTTL reqTTL defaultTTL = reqTTL * 1000000000 ∧
      handleSetTTL reqTTL defaultTTL < 0) := by
  have hexp : item.ttl < 0 → item.createdAt ≤ now → IsExpired item now = true := by
    intro h1 h2
    have hne : item.ttl ≠ 0 := by omega
    simp only [IsExpired, hne, if_false, decide_eq_true_eq]
    omega
  refine ⟨hexp, ?_, ?_⟩
  · intro hl h1 h2
    simp [Get, hl, hexp h1 h2]
  · intro h1 h2
    have hne : reqTTL ≠ 0 := by omega
    have hb1 : -(2 ^ 63) ≤ reqTTL * 1000000000 := by omega
    have hb2 : reqTTL * 1000000000 < 2 ^ 63 := by omega
    unfold handleSetTTL
    rw [if_neg hne, int64wrap_eq_self hb1 hb2]
    constructor
    · rfl
    · omega

/-- Witness for C10: the TTL -5 entry is always a miss, and the boundary maps
a request TTL of -5 seconds to -5000000000 ns. -/
theorem C10_witness :
    (Get negState "n" 7).found = false ∧
    handleSetTTL (-5) 300000000000 = -5000000000 := by
  constructor
  · exact ((C10_negative_ttl ⟨"n", "v", -5, 0, 0, 1, [], []⟩ 7 negState "n"
      (-5) 300000000000).2.1 (by decide) (by decide) (by decide)).1
  · exact ((C10_negative_ttl ⟨"n", "v", -5, 0, 0, 1, [], []⟩ 7 negState "n"
      (-5) 300000000000).2.2 (by decide) (by decide)).1

/-! ### Claim C9 -/

/-- Claim C9: `delete` of an absent key returns false and changes nothing at
all; of a present key it scrubs the entry's tag associations (leaving no
empty bucket), removes the key, adds one to the deletes counter, refreshes
the items gauge, and returns true; afterwards a `get` of the key misses and a
repeated `delete` returns false. -/
theorem C9_delete_semantics (s : Cache) (key : String) (h : WF s) :
    (alookup s.data key = none → Delete s key = (false, s)) ∧
    (∀ item, alookup s.data key = some item →
      (Delete s key).1 = true ∧
      alookup (Delete s key).2.data key = none ∧
      (∀ t, bucketCount (Delete s key).2.tagIndex t key = 0) ∧
      (∀ tb ∈ (Delete s key).2.tagIndex, tb.2 ≠ []) ∧
      (Delete s key).2.deletes = s.deletes + 1 ∧
      (Delete s key).2.totalItems = (Delete s key).2.data.length ∧
      (Delete s key).2.data.length + 1 = s.data.length ∧
      (∀ now, (Get (Delete s key).2 key now).found = false) ∧
      (Delete (Delete s key).2 key).1 = false) := by
  obtain ⟨hd, hi, hb, he⟩ := (Inv_iff_Invc _ _).mp h
  constructor
  · intro hl
    simp [Delete, hl]
  · intro item hl
    have hdel : Delete s key = (true,
      { s with data := aerase s.data key
               tagIndex := removeFromTagIndex s.tagIndex key item.tags
               deletes := s.deletes + 1
               totalItems := (aerase s.data key).length }) := by
      simp [Delete, hl]
    rw [hdel]
    have hnone : alookup (aerase s.data key) key = none :=
      alookup_aerase_self hd key
    refine ⟨rfl, hnone, ?_, ?_, rfl, rfl, ?_, ?_, ?_⟩
    · intro t
      rw [bucketCount_removeFromTagIndex_self hi key item.tags t, he t key]
      simp [tagsCount, hl]
    · exact buckets_removeFromTagIndex hi hb key item.tags
    · exact length_aerase_of_mem (alookup_mem_keysOf hl)
    · intro now
      simp [Get, hnone]
    · simp [Delete, hnone]

/-- Witness for C9 at `hitState`: an absent key and the present key `"h"`. -/
theorem C9_witness :
    Delete hitState "z" = (false, hitState) ∧ (Delete hitState "h").1 = true := by
  constructor
  · exact (C9_delete_semantics hitState "z" (by decide)).1 (by decide)
  · exact ((C9_delete_semantics hitState "h" (by decide)).2
      (plainItem "h" [] 0) (by decide)).1

/-! ### Claim C4 -/

/-- Claim C4 counterexample: at `expiredState`, the removal scheduled by a
`get` that observes the expired entry `"k"` is the public `Delete`, and
running it advances the deletes counter, so a removal due to TTL expiry
observed by get does increment the deletes counter, contradicting the claim. -/
theorem C4_counterexample :
    (Get expiredState "k" 10).found = false ∧
    (Get expiredState "k" 10).scheduleDelete = true ∧
    (Delete (Get expiredState "k" 10).state "k").2.deletes
      = expiredState.deletes + 1 := by decide

/-- Claim C4 amended: the deletes counter advances exactly when `Delete`
removes an entry — tag invalidation, capacity eviction, set, the sweep and
the synchronous part of get never touch it — but the removal a get schedules
upon observing an expired entry is itself a `Delete`, so that removal does
increment the counter when it runs. -/
theorem C4_deletes_counter (s : Cache) (key value tag : String)
    (ttl now : Int) (tags : List String) :
    (∀ item, alookup s.data key = some item →
      (Delete s key).2.deletes = s.deletes + 1) ∧
    (alookup s.data key = none → (Delete s key).2.deletes = s.deletes) ∧
    (InvalidateByTag s tag).2.deletes = s.deletes ∧
    (Set s key value ttl tags now).deletes = s.deletes ∧
    (cleanup s now).deletes = s.deletes ∧
    (evictLRU s).deletes = s.deletes ∧
    (Get s key now).state.deletes = s.deletes ∧
    (∀ item, alookup s.data key = some item → IsExpired item now = true →
      (Get s key now).scheduleDelete = true ∧
      (Delete (Get s key now).state key).2.deletes = s.deletes + 1) := by
  refine ⟨?_, ?_, InvalidateByTag_deletes s tag,
    Set_deletes s key value ttl tags now, cleanup_deletes s now,
    evictLRU_deletes s, Get_deletes s key now, ?_⟩
  · intro item hl; simp [Delete, hl]
  · intro hl; simp [Delete, hl]
  · intro item hl hexp
    have hget : (Get s key now).state = { s with misses := s.misses + 1 } := by
      simp [Get, hl, hexp]
    refine ⟨by simp [Get, hl, hexp], ?_⟩
    rw [hget]
    simp [Delete, hl]

/-- Witness for C4 at `hitState`: invalidation leaves the counter alone, an
explicit delete advances it. -/
theorem C4_witness :
    (InvalidateByTag hitState "t").2.deletes = hitState.deletes ∧
    (Delete hitState "h").2.deletes = hitState.deletes + 1 := by
  refine ⟨(C4_deletes_counter hitState "h" "v" "t" 0 0 []).2.2.1, ?_⟩
  exact (C4_deletes_counter hitState "h" "v" "t" 0 0 []).1
    (plainItem "h" [] 0) (by decide)

/-! ### Claim C8 -/

/-- Claim C8 counterexample: a set with the duplicated tag list `["t", "t"]`
puts the pair `(t, k)` into the Tag Index twice, not once per distinct tag. -/
theorem C8_counterexample :
    WF dupState ∧
    (Set dupState "k" "v" 0 ["t", "t"] 0).tagIndex = [("t", ["k", "k"])] ∧
    bucketCount (Set dupState "k" "v" 0 ["t", "t"] 0).tagIndex "t" "k" = 2 := by
  decide

/-- Claim C8 amended: a set of a fresh key below capacity adds one `(tag,
key)` pair per *occurrence* of a tag in the supplied list (duplicate
occurrences yield duplicate pairs), leaves every other key's pairs alone, and
with an empty tag list leaves the Tag Index untouched. -/
theorem C8_tag_pairs_per_occurrence (s : Cache) (key value : String)
    (ttl : Int) (tags : List String) (now : Int)
    (hnew : alookup s.data key = none) (hcap : s.data.length < s.maxSize) :
    (∀ t, bucketCount (Set s key value ttl tags now).tagIndex t key =
      bucketCount s.tagIndex t key + cnt t tags) ∧
    (∀ t k', k' ≠ key →
      bucketCount (Set s key value ttl tags now).tagIndex t k' =
        bucketCount s.tagIndex t k') ∧
    (tags = [] → (Set s key value ttl tags now).tagIndex = s.tagIndex) := by
  have hc : ¬ s.data.length ≥ s.maxSize := by omega
  have hidx : (Set s key value ttl tags now).tagIndex
      = addToTagIndex s.tagIndex key tags := by
    unfold Set
    simp only [hc, if_false, hnew]
  rw [hidx]
  refine ⟨?_, ?_, ?_⟩
  · intro t; rw [bucketCount_addToTagIndex]; simp
  · intro t k' hk; rw [bucketCount_addToTagIndex]; simp [hk]
  · intro ht; subst ht; rfl

/-- Witness for C8: a fresh tagged set at `hitState` gains exactly one pair. -/
theorem C8_witness :
    bucketCount (Set hitState "k2" "v" 0 ["u"] 0).tagIndex "u" "k2" = 1 := by
  have h := (C8_tag_pairs_per_occurrence hitState "k2" "v" 0 ["u"] 0
    (by decide) (by decide)).1 "u"
  rw [h]
  decide

/-! ### Claim C3 -/

/-- Claim C3 counterexample: at `overState` (two keys filling capacity 2),
setting the already-present key `"b"` nevertheless triggers an eviction (the
capacity check runs before the existing-key check), the evictions counter
advances and the Store shrinks from 2 to 1 entries. -/
theorem C3_counterexample :
    WF overState ∧ overState.data.length = overState.maxSize ∧
    alookup overState.data "b" = some (plainItem "b" [] 2) ∧
    (Set overState "b" "w" 0 [] 10).evictions = overState.evictions + 1 ∧
    (Set overState "b" "w" 0 [] 10).data.length = 1 := by decide

/-- Claim C3 amended: a set of an existing key triggers no eviction and
leaves the Store size unchanged *provided the Store is strictly below
`max_size`* (at capacity the code evicts even on an overwrite); the entry's
tag associations are fully replaced by the new tags in any case. -/
theorem C3_overwrite_below_capacity (s : Cache) (key value : String)
    (ttl : Int) (tags : List String) (now : Int) (old : CacheItem)
    (h : WF s) (hl : alookup s.data key = some old)
    (hcap : s.data.length < s.maxSize) :
    (Set s key value ttl tags now).evictions = s.evictions ∧
    (Set s key value ttl tags now).data.length = s.data.length ∧
    (∀ t, bucketCount (Set s key value ttl tags now).tagIndex t key
      = cnt t tags) := by
  obtain ⟨hd, hi, hb, he⟩ := (Inv_iff_Invc _ _).mp h
  have hc : ¬ s.data.length ≥ s.maxSize := by omega
  have hset : Set s key value ttl tags now =
      { s with
          data := ainsert s.data key ⟨key, value, ttl, now, now, 1, tags, []⟩
          tagIndex := addToTagIndex
            (removeFromTagIndex s.tagIndex key old.tags) key tags
          sets := s.sets + 1
          totalItems := (ainsert s.data key
            ⟨key, value, ttl, now, now, 1, tags, []⟩).length } := by
    unfold Set
    simp only [hc, if_false, hl]
  rw [hset]
  refine ⟨rfl, ?_, ?_⟩
  · exact length_ainsert_of_mem (alookup_mem_keysOf hl) _
  · intro t
    rw [bucketCount_addToTagIndex, if_pos rfl,
      bucketCount_removeFromTagIndex_self hi key old.tags t, he t key]
    simp only [tagsCount, hl]
    omega

/-- Witness for C3 at `hitState`: overwriting `"h"` below capacity. -/
theorem C3_witness :
    (Set hitState "h" "w" 0 ["x"] 5).evictions = hitState.evictions ∧
    (Set hitState "h" "w" 0 ["x"] 5).data.length = hitState.data.length := by
  have h := C3_overwrite_below_capacity hitState "h" "w" 0 ["x"] 5
    (plainItem "h" [] 0) (by decide) (by decide) (by decide)
  exact ⟨h.1, h.2.1⟩

/-! ### Claim C2 -/

/-- Claim C2 counterexample: from the well-formed state `invalState` (three
live entries tagged `"t"`), `invalidate_by_tag("t")` produces a state that
violates the Store/Tag-Index invariant: entry `"b"` is still live with tag
`"t"`, but `"t"` has been removed from the index. -/
theorem C2_counterexample :
    WF invalState ∧
    ¬ TagInvariant (InvalidateByTag invalState "t").2.data
        (InvalidateByTag invalState "t").2.tagIndex := by decide

/-- Claim C2 amended: the Store/Tag-Index consistency invariant holds of every
well-formed state and is preserved by set, get, delete, eviction and the
background sweep — but not by `invalidate_by_tag`, whose slice-aliasing bug
can orphan a live tagged entry. -/
theorem C2_invariant_preserved (s : Cache) (key value : String)
    (ttl now : Int) (tags : List String) (h : WF s) :
    TagInvariant s.data s.tagIndex ∧
    (WF (Set s key value ttl tags now) ∧
      TagInvariant (Set s key value ttl tags now).data
        (Set s key value ttl tags now).tagIndex) ∧
    (WF (Get s key now).state ∧
      TagInvariant (Get s key now).state.data
        (Get s key now).state.tagIndex) ∧
    (WF (Delete s key).2 ∧
      TagInvariant (Delete s key).2.data (Delete s key).2.tagIndex) ∧
    (WF (evictLRU s) ∧
      TagInvariant (evictLRU s).data (evictLRU s).tagIndex) ∧
    (WF (cleanup s now) ∧
      TagInvariant (cleanup s now).data (cleanup s now).tagIndex) :=
  ⟨WF_tagInvariant h,
    ⟨WF_Set s key value ttl tags now h,
      WF_tagInvariant (WF_Set s key value ttl tags now h)⟩,
    ⟨WF_Get s key now h, WF_tagInvariant (WF_Get s key now h)⟩,
    ⟨WF_Delete s key h, WF_tagInvariant (WF_Delete s key h)⟩,
    ⟨WF_evictLRU s h, WF_tagInvariant (WF_evictLRU s h)⟩,
    ⟨WF_cleanup s now h, WF_tagInvariant (WF_cleanup s now h)⟩⟩

/-- Witness for C2 at `hitState`. -/
theorem C2_witness :
    WF (Set hitState "x" "v" 0 ["g"] 3) ∧ WF (cleanup hitState 3) := by
  have h := C2_invariant_preserved hitState "x" "v" 0 3 ["g"] (by decide)
  exact ⟨h.2.1.1, h.2.2.2.2.2.1⟩

/-! ### Claim C1 -/

/-- Claim C1 (code bug): `InvalidateByTag`'s own doc comment promises to
remove all items bearing the tag, but the loop ranges over the bucket slice
while `removeFromTagIndex` splices that slice's backing array in place, so
keys get skipped.  At `invalState` (keys a, b, c all tagged `"t"`) it deletes
only a and c, returns 2, leaves `"b"` live bearing `"t"` (a later get of
`"b"` hits), even though `"t"` is gone from the index. -/
theorem C1_invalidate_misses_key :
    WF invalState ∧
    (∀ kv ∈ invalState.data, "t" ∈ kv.2.tags) ∧
    (InvalidateByTag invalState "t").1 = 2 ∧
    alookup (InvalidateByTag invalState "t").2.data "b"
      = some (plainItem "b" ["t"] 2) ∧
    alookup (InvalidateByTag invalState "t").2.tagIndex "t" = none ∧
    (Get (InvalidateByTag invalState "t").2 "b" 5).found = true := by decide

/-! ### Claim C5 -/

/-- The step function of `findOldest`'s scan. -/
def oldStep (acc : String × Int) (kv : String × CacheItem) : String × Int :=
  if acc.1 = "" ∨ kv.2.accessedAt < acc.2 then (kv.1, kv.2.accessedAt) else acc

theorem findOldest_eq (d : Store) : findOldest d = d.foldl oldStep ("", 0) := rfl

theorem oldStep_fold (l : Store) :
    ∀ acc : String × Int, acc.1 ≠ "" → "" ∉ keysOf l →
      (l.foldl oldStep acc = acc ∨
        ∃ kv ∈ l, l.foldl oldStep acc = (kv.1, kv.2.accessedAt)) ∧
      (l.foldl oldStep acc).2 ≤ acc.2 ∧
      (∀ kv ∈ l, (l.foldl oldStep acc).2 ≤ kv.2.accessedAt) ∧
      (l.foldl oldStep acc).1 ≠ "" := by
  induction l with
  | nil =>
    intro acc h _
    exact ⟨Or.inl rfl, le_refl _, by simp, h⟩
  | cons kv rest ih =>
    intro acc hacc hkeys
    simp only [keysOf_cons, List.mem_cons, not_or] at hkeys
    have hkv1 : kv.1 ≠ "" := fun hc => hkeys.1 hc.symm
    rw [List.foldl_cons]
    have hstep1 : (oldStep acc kv).1 ≠ "" := by
      unfold oldStep
      by_cases hg : acc.1 = "" ∨ kv.2.accessedAt < acc.2
      · rw [if_pos hg]; exact hkv1
      · rw [if_neg hg]; exact hacc
    obtain ⟨hid, hle, hmin, hne⟩ := ih (oldStep acc kv) hstep1 hkeys.2
    have h2a : (oldStep acc kv).2 ≤ acc.2 := by
      unfold oldStep
      by_cases hg : acc.1 = "" ∨ kv.2.accessedAt < acc.2
      · rw [if_pos hg]
        rcases hg with hg | hg
        · exact absurd hg hacc
        · exact le_of_lt hg
      · rw [if_neg hg]
    have h2b : (oldStep acc kv).2 ≤ kv.2.accessedAt := by
      unfold oldStep
      by_cases hg : acc.1 = "" ∨ kv.2.accessedAt < acc.2
      · rw [if_pos hg]
      · rw [if_neg hg]
        push_neg at hg
        exact hg.2
    refine ⟨?_, le_trans hle h2a, ?_, hne⟩
    · by_cases hg : acc.1 = "" ∨ kv.2.accessedAt < acc.2
      · have hs : oldStep acc kv = (kv.1, kv.2.accessedAt) := by
          unfold oldStep
          rw [if_pos hg]
        rw [hs] at hid ⊢
        rcases hid with hid | ⟨kv', hkv', heq⟩
        · exact Or.inr ⟨kv, List.mem_cons_self kv rest, hid⟩
        · exact Or.inr ⟨kv', List.mem_cons_of_mem kv hkv', heq⟩
      · have hs : oldStep acc kv = acc := by
          unfold oldStep
          rw [if_neg hg]
        rw [hs] at hid ⊢
        rcases hid with hid | ⟨kv', hkv', heq⟩
        · exact Or.inl hid
        · exact Or.inr ⟨kv', List.mem_cons_of_mem kv hkv', heq⟩
    · intro kv' hkv'
      rcases List.mem_cons.mp hkv' with h' | h'
      · subst h'
        exact le_trans hle h2b
      · exact hmin kv' h'

theorem findOldest_spec {d : Store} (hne : d ≠ []) (hkeys : "" ∉ keysOf d) :
    ∃ kv ∈ d, findOldest d = (kv.1, kv.2.accessedAt) ∧
      ∀ kv' ∈ d, kv.2.accessedAt ≤ kv'.2.accessedAt := by
  cases d with
  | nil => exact absurd rfl hne
  | cons kv0 rest =>
    simp only [keysOf_cons, List.mem_cons, not_or] at hkeys
    have hkv0 : kv0.1 ≠ "" := fun hc => hkeys.1 hc.symm
    have h0 : findOldest (kv0 :: rest)
        = rest.foldl oldStep (kv0.1, kv0.2.accessedAt) := by
      rw [findOldest_eq, List.foldl_cons]
      congr 1
    obtain ⟨hid, hle, hmin, hne'⟩ :=
      oldStep_fold rest (kv0.1, kv0.2.accessedAt) hkv0 hkeys.2
    rcases hid with hid | ⟨kv', hkv', heq⟩
    · refine ⟨kv0, List.mem_cons_self _ _, by rw [h0, hid], ?_⟩
      intro kv' hkv'
      rcases List.mem_cons.mp hkv' with h' | h'
      · subst h'; exact le_refl _
      · have h3 := hmin kv' h'
        rw [hid] at h3
        exact h3
    · refine ⟨kv', List.mem_cons_of_mem _ hkv', by rw [h0, heq], ?_⟩
      intro kv'' hkv''
      have hres : (rest.foldl oldStep (kv0.1, kv0.2.accessedAt)).2
          = kv'.2.accessedAt := by rw [heq]
      rcases List.mem_cons.mp hkv'' with h' | h'
      · subst h'
        rw [hres] at hle
        exact hle
      · have h3 := hmin kv'' h'
        rw [hres] at h3
        exact h3

/-- Claim C5 counterexample: at `sentinelState` the only stored key is the
empty string, which `evictLRU` uses as its unset sentinel, so a set of a new
key evicts nothing and the Store grows past `max_size`. -/
theorem C5_counterexample :
    WF sentinelState ∧
    sentinelState.data.length = sentinelState.maxSize ∧
    0 < sentinelState.maxSize ∧
    alookup sentinelState.data "b" = none ∧
    (Set sentinelState "b" "w" 0 [] 10).evictions = sentinelState.evictions ∧
    (Set sentinelState "b" "w" 0 [] 10).data.length
      = sentinelState.maxSize + 1 := by decide

/-- Claim C5 amended: a set of a new key into a Store holding exactly
`max_size` entries (positive, per the configuration model) evicts exactly one
entry whose `accessed_at` is minimal, scrubs its tag associations, advances
the evictions counter and not the deletes counter, and leaves the Store at
`max_size` — *provided no stored key is the empty string*, which the
implementation reserves as the eviction scan's sentinel. -/
theorem C5_eviction_at_capacity (s : Cache) (key value : String) (ttl : Int)
    (tags : List String) (now : Int) (h : WF s)
    (hfull : s.data.length = s.maxSize) (hpos : 0 < s.maxSize)
    (hnew : alookup s.data key = none) (hkeys : "" ∉ keysOf s.data) :
    ∃ ek item, alookup s.data ek = some item ∧
      (∀ kv ∈ s.data, item.accessedAt ≤ kv.2.accessedAt) ∧
      (Set s key value ttl tags now).evictions = s.evictions + 1 ∧
      (Set s key value ttl tags now).deletes = s.deletes ∧
      (Set s key value ttl tags now).data.length = s.maxSize ∧
      alookup (Set s key value ttl tags now).data ek = none ∧
      (∀ t, bucketCount (Set s key value ttl tags now).tagIndex t ek = 0) := by
  obtain ⟨hd, hi, hb, he⟩ := (Inv_iff_Invc _ _).mp h
  have hdne : s.data ≠ [] := by
    intro hc
    rw [hc] at hfull
    simp at hfull
    omega
  obtain ⟨kv, hkv, hfo, hmin⟩ := findOldest_spec hdne hkeys
  have hlek : alookup s.data kv.1 = some kv.2 := alookup_of_mem_nodup hd hkv
  have hek_ne : kv.1 ≠ "" := fun hc =>
    hkeys (hc ▸ List.mem_map_of_mem Prod.fst hkv)
  have hfo1 : (findOldest s.data).1 = kv.1 := by rw [hfo]
  have hev : evictLRU s =
      { s with tagIndex := removeFromTagIndex s.tagIndex kv.1 kv.2.tags
               data := aerase s.data kv.1
               evictions := s.evictions + 1 } := by
    unfold evictLRU
    simp only [hfo1, hlek, if_neg hek_ne]
  have hge : s.data.length ≥ s.maxSize := ge_of_eq hfull
  have hkne : key ≠ kv.1 := by
    intro hc
    rw [hc] at hnew
    rw [hnew] at hlek
    cases hlek
  have hlk1 : alookup (aerase s.data kv.1) key = none := by
    rw [alookup_aerase_ne hkne]
    exact hnew
  have hset : Set s key value ttl tags now =
      { s with
          data := ainsert (aerase s.data kv.1) key
            ⟨key, value, ttl, now, now, 1, tags, []⟩
          tagIndex := addToTagIndex
            (removeFromTagIndex s.tagIndex kv.1 kv.2.tags) key tags
          sets := s.sets + 1
          evictions := s.evictions + 1
          totalItems := (ainsert (aerase s.data kv.1) key
            ⟨key, value, ttl, now, now, 1, tags, []⟩).length } := by
    unfold Set
    rw [if_pos hge, hev]
    simp only [hlk1]
  refine ⟨kv.1, kv.2, hlek, hmin, ?_, ?_, ?_, ?_, ?_⟩
  · rw [hset]
  · rw [hset]
  · rw [hset]
    have h1 : key ∉ keysOf (aerase s.data kv.1) := alookup_eq_none_iff.mp hlk1
    have h2 := length_aerase_of_mem (alookup_mem_keysOf hlek)
    show (ainsert (aerase s.data kv.1) key
      ⟨key, value, ttl, now, now, 1, tags, []⟩).length = s.maxSize
    rw [length_ainsert_of_not_mem h1]
    omega
  · rw [hset]
    show alookup (ainsert (aerase s.data kv.1) key
      ⟨key, value, ttl, now, now, 1, tags, []⟩) kv.1 = none
    rw [alookup_ainsert_ne (Ne.symm hkne)]
    exact alookup_aerase_self hd kv.1
  · intro t
    rw [hset]
    show bucketCount (addToTagIndex
      (removeFromTagIndex s.tagIndex kv.1 kv.2.tags) key tags) t kv.1 = 0
    rw [bucketCount_addToTagIndex, if_neg (Ne.symm hkne),
      bucketCount_removeFromTagIndex_self hi kv.1 kv.2.tags t, he t kv.1]
    simp only [tagsCount, hlek]
    omega

/-- Witness for C5 at `fullState`: setting `"b"` into the full capacity-1
cache evicts and keeps the size at 1. -/
theorem C5_witness :
    (Set fullState "b" "w" 0 [] 9).evictions = fullState.evictions + 1 ∧
    (Set fullState "b" "w" 0 [] 9).data.length = fullState.maxSize := by
  obtain ⟨ek, item, h1, h2, h3, h4, h5, h6, h7⟩ :=
    C5_eviction_at_capacity fullState "b" "w" 0 [] 9 (by decide) (by decide)
      (by decide) (by decide) (by decide)
  exact ⟨h3, h5⟩

end DistroCache
